import Mathlib

/-!
Verification of the Black-Scholes pricing core of `src/main.py`.

The pricing functions `black_scholes_call` and `black_scholes_put`
(src/main.py lines 9-19) are embedded as real-valued functions, with the
standard normal CDF (`scipy.stats.norm.cdf`) embedded as `normCdf`.
The parameter-sweep grid of lines 83-90 is embedded as list operations:
`linspace` for `np.linspace`, `npUnique` for `np.unique`, and the grid
comprehensions as nested `List.map`.
-/

open MeasureTheory Set

noncomputable section

/-- Gaussian kernel `exp (-t^2 / 2)`, the density integrand of the standard
normal distribution used by `scipy.stats.norm.cdf` in the source. -/
def gauss (t : ℝ) : ℝ := Real.exp (-(t ^ 2) / 2)

/-- Standard normal cumulative distribution function (`norm.cdf` in
src/main.py lines 12, 18). -/
def normCdf (x : ℝ) : ℝ := (∫ t in Iic x, gauss t) / Real.sqrt (2 * Real.pi)

/-- Numerator of `d1` as written on src/main.py line 10:
`np.log(S / K) + (r + 0.5 * sigma ** 2) * T`. -/
def d1_num (S K T r sigma : ℝ) : ℝ := Real.log (S / K) + (r + 0.5 * sigma ^ 2) * T

/-- Numerator of `d2` as written on src/main.py line 11:
`np.log(S / K) + (r - 0.5 * sigma ** 2) * T`. -/
def d2_num (S K T r sigma : ℝ) : ℝ := Real.log (S / K) + (r - 0.5 * sigma ^ 2) * T

/-- Shared denominator `sigma * np.sqrt(T)` of `d1` and `d2`
(src/main.py lines 10-11, 16-17). -/
def d_den (T sigma : ℝ) : ℝ := sigma * Real.sqrt T

/-- `d1` of src/main.py lines 10 and 16. -/
def d1 (S K T r sigma : ℝ) : ℝ := d1_num S K T r sigma / d_den T sigma

/-- `d2` of src/main.py lines 11 and 17. -/
def d2 (S K T r sigma : ℝ) : ℝ := d2_num S K T r sigma / d_den T sigma

/-- `black_scholes_call` of src/main.py lines 9-13:
`S * norm.cdf(d1) - K * np.exp(-r * T) * norm.cdf(d2)`. -/
def black_scholes_call (S K T r sigma : ℝ) : ℝ :=
  S * normCdf (d1 S K T r sigma) - K * Real.exp (-r * T) * normCdf (d2 S K T r sigma)

/-- `black_scholes_put` of src/main.py lines 15-19:
`K * np.exp(-r * T) * norm.cdf(-d2) - S * norm.cdf(-d1)`. -/
def black_scholes_put (S K T r sigma : ℝ) : ℝ :=
  K * Real.exp (-r * T) * normCdf (-d2 S K T r sigma) - S * normCdf (-d1 S K T r sigma)

/-- `np.linspace a b n`: `n` uniform samples from `a` to `b` inclusive
(src/main.py lines 83-84). -/
def linspace (a b : ℝ) (n : ℕ) : List ℝ :=
  (List.range n).map (fun i : ℕ => a + (b - a) * (i : ℝ) / ((n : ℝ) - 1))

/-- `np.unique`: the sorted list of distinct values of the input
(src/main.py line 87). -/
def npUnique (xs : List ℝ) : List ℝ := xs.toFinset.sort (· ≤ ·)

/-- `spot_prices = np.linspace(min_S, max_S, 10)` (src/main.py line 83). -/
def spot_prices (min_S max_S : ℝ) : List ℝ := linspace min_S max_S 10

/-- `volatilities = np.unique(np.append(np.linspace(min_sigma, max_sigma, 10), sigma))`
(src/main.py lines 84-87). -/
def volatilities (sigma min_sigma max_sigma : ℝ) : List ℝ :=
  npUnique (linspace min_sigma max_sigma 10 ++ [sigma])

/-- The call-price grid of src/main.py line 89: one row per volatility,
one column per spot price, every cell routed through `black_scholes_call`. -/
def call_prices (K T r : ℝ) (spotAxis volAxis : List ℝ) : List (List ℝ) :=
  volAxis.map (fun v => spotAxis.map (fun S => black_scholes_call S K T r v))

/-- The put-price grid of src/main.py line 90. -/
def put_prices (K T r : ℝ) (spotAxis volAxis : List ℝ) : List (List ℝ) :=
  volAxis.map (fun v => spotAxis.map (fun S => black_scholes_put S K T r v))

/-- Call prices versus spot at the base volatility (src/main.py line 128). -/
def spot_slice_call (K T r sigma : ℝ) (spotAxis : List ℝ) : List ℝ :=
  spotAxis.map (fun S => black_scholes_call S K T r sigma)

/-- Put prices versus spot at the base volatility (src/main.py line 129). -/
def spot_slice_put (K T r sigma : ℝ) (spotAxis : List ℝ) : List ℝ :=
  spotAxis.map (fun S => black_scholes_put S K T r sigma)

/-! ### Basic facts about the Gaussian kernel and the normal CDF -/

lemma gauss_eq_exp_neg_mul_sq : gauss = fun t => Real.exp (-(1 / 2 : ℝ) * t ^ 2) := by
  funext t
  unfold gauss
  congr 1
  ring

lemma gauss_pos (t : ℝ) : 0 < gauss t := Real.exp_pos _

lemma gauss_nonneg (t : ℝ) : 0 ≤ gauss t := (gauss_pos t).le

lemma integrable_gauss : Integrable gauss := by
  rw [gauss_eq_exp_neg_mul_sq]
  exact integrable_exp_neg_mul_sq (by norm_num)

lemma integrable_gauss_shift (c : ℝ) : Integrable (fun t => gauss (t - c)) :=
  Integrable.comp_sub_right integrable_gauss c

lemma integral_gauss : ∫ t, gauss t = Real.sqrt (2 * Real.pi) := by
  rw [gauss_eq_exp_neg_mul_sq, integral_gaussian]
  congr 1
  rw [div_div_eq_mul_div, div_one, mul_comm]

lemma sqrt_two_pi_pos : 0 < Real.sqrt (2 * Real.pi) :=
  Real.sqrt_pos.mpr (by positivity)

lemma normCdf_nonneg (x : ℝ) : 0 ≤ normCdf x :=
  div_nonneg (setIntegral_nonneg measurableSet_Iic fun t _ => gauss_nonneg t)
    (Real.sqrt_nonneg _)

lemma normCdf_le_one (x : ℝ) : normCdf x ≤ 1 := by
  rw [normCdf, div_le_one sqrt_two_pi_pos, ← integral_gauss]
  exact setIntegral_le_integral integrable_gauss (ae_of_all _ fun t => gauss_nonneg t)

lemma integral_gauss_Iic_neg (x : ℝ) :
    ∫ t in Iic (-x), gauss t = ∫ t in Ioi x, gauss t := by
  have h := integral_comp_neg_Iic (-x) gauss
  rw [neg_neg] at h
  rw [← h]
  refine setIntegral_congr_fun measurableSet_Iic fun t _ => ?_
  simp [gauss, neg_sq]

lemma integral_gauss_Iic_add_Ioi (x : ℝ) :
    (∫ t in Iic x, gauss t) + ∫ t in Ioi x, gauss t = Real.sqrt (2 * Real.pi) := by
  have h := integral_add_compl (measurableSet_Iic (a := x)) integrable_gauss (μ := volume)
  rw [compl_Iic] at h
  rw [h, integral_gauss]

lemma normCdf_neg (x : ℝ) : normCdf (-x) = 1 - normCdf x := by
  have h := integral_gauss_Iic_add_Ioi x
  rw [normCdf, normCdf, integral_gauss_Iic_neg, eq_sub_iff_add_eq, div_add_div_same,
    add_comm, h, div_self sqrt_two_pi_pos.ne']

lemma normCdf_add_neg (x : ℝ) : normCdf x + normCdf (-x) = 1 := by
  rw [normCdf_neg]
  ring

/-! ### Algebra of `d1`, `d2` and the shared denominator -/

lemma d_den_pos {T sigma : ℝ} (hT : 0 < T) (hs : 0 < sigma) : 0 < d_den T sigma :=
  mul_pos hs (Real.sqrt_pos.mpr hT)

lemma d_den_sq {T : ℝ} (sigma : ℝ) (hT : 0 ≤ T) : d_den T sigma ^ 2 = sigma ^ 2 * T := by
  rw [d_den, mul_pow, Real.sq_sqrt hT]

lemma d2_eq_d1_sub {S K T r sigma : ℝ} (hT : 0 < T) (hs : 0 < sigma) :
    d2 S K T r sigma = d1 S K T r sigma - d_den T sigma := by
  have hc := (d_den_pos hT hs).ne'
  have hc2 := d_den_sq sigma hT.le
  rw [d1, d2, d1_num, d2_num, eq_sub_iff_add_eq, div_add' _ _ _ hc, div_eq_div_iff hc hc]
  linear_combination d_den T sigma * hc2

lemma d_den_mul_d1 (S K r : ℝ) {T sigma : ℝ} (hT : 0 < T) (hs : 0 < sigma) :
    d_den T sigma * d1 S K T r sigma
      = Real.log (S / K) + r * T + d_den T sigma ^ 2 / 2 := by
  have hc := (d_den_pos hT hs).ne'
  rw [d1, mul_div_cancel₀ _ hc, d1_num, d_den_sq sigma hT.le]
  ring

/-! ### Pointwise comparison of the two Gaussian terms -/

lemma gauss_shift_le {S K T r sigma : ℝ} (hS : 0 < S) (hK : 0 < K) (hT : 0 < T)
    (hs : 0 < sigma) {u : ℝ} (hu : u ≤ d1 S K T r sigma) :
    K * Real.exp (-r * T) * gauss (u - d_den T sigma) ≤ S * gauss u := by
  have hc := d_den_pos hT hs
  have h1 := d_den_mul_d1 S K r hT hs
  have hlog : Real.log (S / K) = Real.log S - Real.log K := Real.log_div hS.ne' hK.ne'
  have hSe : S * gauss u = Real.exp (Real.log S + -(u ^ 2) / 2) := by
    rw [Real.exp_add, Real.exp_log hS]
    simp only [gauss]
  have hKe : K * Real.exp (-r * T) * gauss (u - d_den T sigma)
      = Real.exp (Real.log K + -r * T + -((u - d_den T sigma) ^ 2) / 2) := by
    rw [Real.exp_add, Real.exp_add, Real.exp_log hK]
    simp only [gauss]
  rw [hSe, hKe]
  apply Real.exp_le_exp.mpr
  nlinarith [mul_nonneg hc.le (sub_nonneg.mpr hu)]

lemma gauss_shift_ge {S K T r sigma : ℝ} (hS : 0 < S) (hK : 0 < K) (hT : 0 < T)
    (hs : 0 < sigma) {u : ℝ} (hu : d1 S K T r sigma ≤ u) :
    S * gauss u ≤ K * Real.exp (-r * T) * gauss (u - d_den T sigma) := by
  have hc := d_den_pos hT hs
  have h1 := d_den_mul_d1 S K r hT hs
  have hlog : Real.log (S / K) = Real.log S - Real.log K := Real.log_div hS.ne' hK.ne'
  have hSe : S * gauss u = Real.exp (Real.log S + -(u ^ 2) / 2) := by
    rw [Real.exp_add, Real.exp_log hS]
    simp only [gauss]
  have hKe : K * Real.exp (-r * T) * gauss (u - d_den T sigma)
      = Real.exp (Real.log K + -r * T + -((u - d_den T sigma) ^ 2) / 2) := by
    rw [Real.exp_add, Real.exp_add, Real.exp_log hK]
    simp only [gauss]
  rw [hSe, hKe]
  apply Real.exp_le_exp.mpr
  nlinarith [mul_nonneg hc.le (sub_nonneg.mpr hu)]

/-! ### Translating the integration variable -/

lemma integral_gauss_shift_Iic (b c : ℝ) :
    ∫ t in Iic b, gauss (t - c) = ∫ t in Iic (b - c), gauss t := by
  have h1 : ∀ t : ℝ, (Iic b).indicator (fun s => gauss (s - c)) t
      = (Iic (b - c)).indicator gauss (t - c) := by
    intro t
    simp only [indicator_apply, mem_Iic]
    by_cases ht : t ≤ b
    · rw [if_pos ht, if_pos (by linarith)]
    · rw [if_neg ht, if_neg (by intro h2; exact ht (by linarith))]
  rw [← integral_indicator measurableSet_Iic]
  simp only [h1]
  rw [integral_sub_right_eq_self ((Iic (b - c)).indicator gauss) c,
    integral_indicator measurableSet_Iic]

lemma integral_gauss_shift_Ioi (b c : ℝ) :
    ∫ t in Ioi b, gauss (t - c) = ∫ t in Ioi (b - c), gauss t := by
  have h1 : ∀ t : ℝ, (Ioi b).indicator (fun s => gauss (s - c)) t
      = (Ioi (b - c)).indicator gauss (t - c) := by
    intro t
    simp only [indicator_apply, mem_Ioi]
    by_cases ht : b < t
    · rw [if_pos ht, if_pos (by linarith)]
    · rw [if_neg ht, if_neg (by intro h2; exact ht (by linarith))]
  rw [← integral_indicator measurableSet_Ioi]
  simp only [h1]
  rw [integral_sub_right_eq_self ((Ioi (b - c)).indicator gauss) c,
    integral_indicator measurableSet_Ioi]

/-! ### Integral representations of the two prices -/

lemma call_eq_integral {S K T r sigma : ℝ} (hT : 0 < T) (hs : 0 < sigma) :
    black_scholes_call S K T r sigma
      = (∫ u in Iic (d1 S K T r sigma),
          (S * gauss u - K * Real.exp (-r * T) * gauss (u - d_den T sigma)))
        / Real.sqrt (2 * Real.pi) := by
  have hInt1 : IntegrableOn (fun u => S * gauss u) (Iic (d1 S K T r sigma)) volume :=
    (integrable_gauss.const_mul S).integrableOn
  have hInt2 : IntegrableOn
      (fun u => K * Real.exp (-r * T) * gauss (u - d_den T sigma))
      (Iic (d1 S K T r sigma)) volume :=
    ((integrable_gauss_shift (d_den T sigma)).const_mul (K * Real.exp (-r * T))).integrableOn
  rw [integral_sub hInt1 hInt2, integral_mul_left, integral_mul_left,
    black_scholes_call, normCdf, normCdf, d2_eq_d1_sub hT hs, ← integral_gauss_shift_Iic]
  ring

lemma put_eq_integral {S K T r sigma : ℝ} (hT : 0 < T) (hs : 0 < sigma) :
    black_scholes_put S K T r sigma
      = (∫ u in Ioi (d1 S K T r sigma),
          (K * Real.exp (-r * T) * gauss (u - d_den T sigma) - S * gauss u))
        / Real.sqrt (2 * Real.pi) := by
  have hInt1 : IntegrableOn
      (fun u => K * Real.exp (-r * T) * gauss (u - d_den T sigma))
      (Ioi (d1 S K T r sigma)) volume :=
    ((integrable_gauss_shift (d_den T sigma)).const_mul (K * Real.exp (-r * T))).integrableOn
  have hInt2 : IntegrableOn (fun u => S * gauss u) (Ioi (d1 S K T r sigma)) volume :=
    (integrable_gauss.const_mul S).integrableOn
  rw [integral_sub hInt1 hInt2, integral_mul_left, integral_mul_left,
    black_scholes_put, normCdf, normCdf, d2_eq_d1_sub hT hs,
    integral_gauss_Iic_neg, integral_gauss_Iic_neg, ← integral_gauss_shift_Ioi]
  ring

/-! ### Monotonicity in the spot price -/

lemma d1_le_d1 {S1 S2 K T r sigma : ℝ} (hS1 : 0 < S1) (hK : 0 < K) (hT : 0 < T)
    (hs : 0 < sigma) (h12 : S1 ≤ S2) :
    d1 S1 K T r sigma ≤ d1 S2 K T r sigma := by
  have hc := d_den_pos hT hs
  rw [d1, d1, div_le_div_right hc, d1_num, d1_num]
  have hlog := Real.log_le_log (div_pos hS1 hK) ((div_le_div_right hK).mpr h12)
  linarith

lemma call_mono_spot {S1 S2 K T r sigma : ℝ} (hS1 : 0 < S1) (hK : 0 < K) (hT : 0 < T)
    (hs : 0 < sigma) (h12 : S1 ≤ S2) :
    black_scholes_call S1 K T r sigma ≤ black_scholes_call S2 K T r sigma := by
  have hS2 : 0 < S2 := hS1.trans_le h12
  have hb := d1_le_d1 (r := r) hS1 hK hT hs h12
  have hKe : Integrable (fun u => K * Real.exp (-r * T) * gauss (u - d_den T sigma)) :=
    (integrable_gauss_shift (d_den T sigma)).const_mul (K * Real.exp (-r * T))
  have hF1 : Integrable
      (fun u => S1 * gauss u - K * Real.exp (-r * T) * gauss (u - d_den T sigma)) :=
    (integrable_gauss.const_mul S1).sub hKe
  have hF2 : Integrable
      (fun u => S2 * gauss u - K * Real.exp (-r * T) * gauss (u - d_den T sigma)) :=
    (integrable_gauss.const_mul S2).sub hKe
  rw [call_eq_integral hT hs, call_eq_integral hT hs,
    div_le_div_right sqrt_two_pi_pos]
  have hsplit := setIntegral_union
    (s := Iic (d1 S1 K T r sigma)) (t := Ioc (d1 S1 K T r sigma) (d1 S2 K T r sigma))
    (f := fun u => S2 * gauss u - K * Real.exp (-r * T) * gauss (u - d_den T sigma))
    (Iic_disjoint_Ioc (le_refl (d1 S1 K T r sigma)))
    measurableSet_Ioc hF2.integrableOn hF2.integrableOn
  rw [Iic_union_Ioc_eq_Iic hb] at hsplit
  have h1 : (∫ u in Iic (d1 S1 K T r sigma),
        (S1 * gauss u - K * Real.exp (-r * T) * gauss (u - d_den T sigma)))
      ≤ ∫ u in Iic (d1 S1 K T r sigma),
        (S2 * gauss u - K * Real.exp (-r * T) * gauss (u - d_den T sigma)) :=
    setIntegral_mono_on hF1.integrableOn hF2.integrableOn measurableSet_Iic
      fun u _ => sub_le_sub_right (mul_le_mul_of_nonneg_right h12 (gauss_nonneg u)) _
  have h2 : 0 ≤ ∫ u in Ioc (d1 S1 K T r sigma) (d1 S2 K T r sigma),
      (S2 * gauss u - K * Real.exp (-r * T) * gauss (u - d_den T sigma)) :=
    setIntegral_nonneg measurableSet_Ioc
      fun u hu => sub_nonneg.mpr (gauss_shift_le hS2 hK hT hs hu.2)
  linarith

lemma put_anti_spot {S1 S2 K T r sigma : ℝ} (hS1 : 0 < S1) (hK : 0 < K) (hT : 0 < T)
    (hs : 0 < sigma) (h12 : S1 ≤ S2) :
    black_scholes_put S2 K T r sigma ≤ black_scholes_put S1 K T r sigma := by
  have hb := d1_le_d1 (r := r) hS1 hK hT hs h12
  have hKe : Integrable (fun u => K * Real.exp (-r * T) * gauss (u - d_den T sigma)) :=
    (integrable_gauss_shift (d_den T sigma)).const_mul (K * Real.exp (-r * T))
  have hG1 : Integrable
      (fun u => K * Real.exp (-r * T) * gauss (u - d_den T sigma) - S1 * gauss u) :=
    hKe.sub (integrable_gauss.const_mul S1)
  have hG2 : Integrable
      (fun u => K * Real.exp (-r * T) * gauss (u - d_den T sigma) - S2 * gauss u) :=
    hKe.sub (integrable_gauss.const_mul S2)
  rw [put_eq_integral hT hs, put_eq_integral hT hs,
    div_le_div_right sqrt_two_pi_pos]
  have hsplit := setIntegral_union
    (s := Ioc (d1 S1 K T r sigma) (d1 S2 K T r sigma)) (t := Ioi (d1 S2 K T r sigma))
    (f := fun u => K * Real.exp (-r * T) * gauss (u - d_den T sigma) - S1 * gauss u)
    (Ioc_disjoint_Ioi (le_refl (d1 S2 K T r sigma)))
    measurableSet_Ioi hG1.integrableOn hG1.integrableOn
  rw [Ioc_union_Ioi_eq_Ioi hb] at hsplit
  have h1 : (∫ u in Ioi (d1 S2 K T r sigma),
        (K * Real.exp (-r * T) * gauss (u - d_den T sigma) - S2 * gauss u))
      ≤ ∫ u in Ioi (d1 S2 K T r sigma),
        (K * Real.exp (-r * T) * gauss (u - d_den T sigma) - S1 * gauss u) :=
    setIntegral_mono_on hG2.integrableOn hG1.integrableOn measurableSet_Ioi
      fun u _ => sub_le_sub_left (mul_le_mul_of_nonneg_right h12 (gauss_nonneg u)) _
  have h2 : 0 ≤ ∫ u in Ioc (d1 S1 K T r sigma) (d1 S2 K T r sigma),
      (K * Real.exp (-r * T) * gauss (u - d_den T sigma) - S1 * gauss u) :=
    setIntegral_nonneg measurableSet_Ioc
      fun u hu => sub_nonneg.mpr (gauss_shift_ge hS1 hK hT hs (le_of_lt hu.1))
  linarith

/-! ### Claim theorems for the pricing function -/

/-- Claim C1: for every input with spot `S > 0`, strike `K > 0`, maturity
`T > 0` and volatility `sigma > 0`, the pricing operation returns
`call = S·Φ(d1) − K·e^(−r·T)·Φ(d2)` and `put = K·e^(−r·T)·Φ(−d2) − S·Φ(−d1)`,
where `d1 = (ln(S/K) + (r + 0.5·σ²)·T)/(σ·√T)`, `d2 = d1 − σ·√T`, and `Φ` is
the standard normal CDF. -/
theorem C1_pricing_formula (S K T r sigma : ℝ) (hS : 0 < S) (hK : 0 < K)
    (hT : 0 < T) (hs : 0 < sigma) :
    d1 S K T r sigma
      = (Real.log (S / K) + (r + 0.5 * sigma ^ 2) * T) / (sigma * Real.sqrt T) ∧
    black_scholes_call S K T r sigma
      = S * normCdf (d1 S K T r sigma)
        - K * Real.exp (-r * T) * normCdf (d1 S K T r sigma - sigma * Real.sqrt T) ∧
    black_scholes_put S K T r sigma
      = K * Real.exp (-r * T) * normCdf (-(d1 S K T r sigma - sigma * Real.sqrt T))
        - S * normCdf (-(d1 S K T r sigma)) := by
  have hd2 : d2 S K T r sigma = d1 S K T r sigma - sigma * Real.sqrt T := by
    rw [d2_eq_d1_sub hT hs, d_den]
  refine ⟨rfl, ?_, ?_⟩
  · rw [black_scholes_call, hd2]
  · rw [black_scholes_put, hd2]

/-- Witness for C1 at S = 100, K = 100, T = 1, r = 0.05, σ = 0.2. -/
theorem C1_pricing_formula_witness :
    (0:ℝ) < 100 ∧ (0:ℝ) < 1 ∧ (0:ℝ) < 2/10 ∧
    black_scholes_call 100 100 1 (5/100) (2/10)
      = 100 * normCdf (d1 100 100 1 (5/100) (2/10))
        - 100 * Real.exp (-(5/100) * 1)
          * normCdf (d1 100 100 1 (5/100) (2/10) - 2/10 * Real.sqrt 1) :=
  ⟨by norm_num, by norm_num, by norm_num,
    (C1_pricing_formula 100 100 1 (5/100) (2/10) (by norm_num) (by norm_num)
      (by norm_num) (by norm_num)).2.1⟩

/-- Claim C2: put-call parity. For every input with spot, strike, maturity and
volatility positive, `call − put = S − K·e^(−r·T)` holds exactly, hence in
particular within relative tolerance `1e-9` of the larger of `|call|`, `|put|`
and `1`. -/
theorem C2_put_call_parity (S K T r sigma : ℝ) (hS : 0 < S) (hK : 0 < K)
    (hT : 0 < T) (hs : 0 < sigma) :
    black_scholes_call S K T r sigma - black_scholes_put S K T r sigma
      = S - K * Real.exp (-r * T) ∧
    |black_scholes_call S K T r sigma - black_scholes_put S K T r sigma
        - (S - K * Real.exp (-r * T))|
      ≤ 1 / 1000000000
        * max (max |black_scholes_call S K T r sigma|
            |black_scholes_put S K T r sigma|) 1 := by
  have h1 := normCdf_add_neg (d1 S K T r sigma)
  have h2 := normCdf_add_neg (d2 S K T r sigma)
  have hpar : black_scholes_call S K T r sigma - black_scholes_put S K T r sigma
      = S - K * Real.exp (-r * T) := by
    rw [black_scholes_call, black_scholes_put]
    linear_combination S * h1 - K * Real.exp (-r * T) * h2
  refine ⟨hpar, ?_⟩
  rw [hpar, sub_self, abs_zero]
  have hmax : (1:ℝ) ≤ max (max |black_scholes_call S K T r sigma|
      |black_scholes_put S K T r sigma|) 1 := le_max_right _ _
  exact mul_nonneg (by norm_num) (by linarith)

/-- Witness for C2 at S = 100, K = 100, T = 1, r = 0.05, σ = 0.2. -/
theorem C2_put_call_parity_witness :
    (0:ℝ) < 100 ∧ (0:ℝ) < 1 ∧ (0:ℝ) < 2/10 ∧
    black_scholes_call 100 100 1 (5/100) (2/10)
        - black_scholes_put 100 100 1 (5/100) (2/10)
      = 100 - 100 * Real.exp (-(5/100) * 1) :=
  ⟨by norm_num, by norm_num, by norm_num,
    (C2_put_call_parity 100 100 1 (5/100) (2/10) (by norm_num) (by norm_num)
      (by norm_num) (by norm_num)).1⟩

/-- Claim C7: holding strike, maturity, rate and volatility fixed (strike,
maturity and volatility positive), the call price is non-decreasing and the
put price non-increasing in the spot price, over positive spots. -/
theorem C7_monotone_in_spot (K T r sigma S1 S2 : ℝ) (hK : 0 < K) (hT : 0 < T)
    (hs : 0 < sigma) (hS1 : 0 < S1) (h12 : S1 ≤ S2) :
    black_scholes_call S1 K T r sigma ≤ black_scholes_call S2 K T r sigma ∧
    black_scholes_put S2 K T r sigma ≤ black_scholes_put S1 K T r sigma :=
  ⟨call_mono_spot hS1 hK hT hs h12, put_anti_spot hS1 hK hT hs h12⟩

/-- Witness for C7 at K = 100, T = 1, r = 0.05, σ = 0.2, spots 90 ≤ 110. -/
theorem C7_monotone_in_spot_witness :
    (0:ℝ) < 90 ∧ (90:ℝ) ≤ 110 ∧
    (black_scholes_call 90 100 1 (5/100) (2/10)
        ≤ black_scholes_call 110 100 1 (5/100) (2/10) ∧
      black_scholes_put 110 100 1 (5/100) (2/10)
        ≤ black_scholes_put 90 100 1 (5/100) (2/10)) :=
  ⟨by norm_num, by norm_num,
    C7_monotone_in_spot 100 1 (5/100) (2/10) 90 110 (by norm_num) (by norm_num)
      (by norm_num) (by norm_num) (by norm_num)⟩

/-- Claim C9: for every input with spot, strike, maturity and volatility
positive, both returned prices are non-negative. -/
theorem C9_prices_nonneg (S K T r sigma : ℝ) (hS : 0 < S) (hK : 0 < K)
    (hT : 0 < T) (hs : 0 < sigma) :
    0 ≤ black_scholes_call S K T r sigma ∧ 0 ≤ black_scholes_put S K T r sigma := by
  constructor
  · rw [call_eq_integral hT hs]
    refine div_nonneg (setIntegral_nonneg measurableSet_Iic fun u hu => ?_)
      (Real.sqrt_nonneg _)
    exact sub_nonneg.mpr (gauss_shift_le hS hK hT hs (mem_Iic.mp hu))
  · rw [put_eq_integral hT hs]
    refine div_nonneg (setIntegral_nonneg measurableSet_Ioi fun u hu => ?_)
      (Real.sqrt_nonneg _)
    exact sub_nonneg.mpr (gauss_shift_ge hS hK hT hs (le_of_lt (mem_Ioi.mp hu)))

/-- Witness for C9 at S = 100, K = 100, T = 1, r = 0.05, σ = 0.2. -/
theorem C9_prices_nonneg_witness :
    (0:ℝ) < 100 ∧ (0:ℝ) < 2/10 ∧
    (0 ≤ black_scholes_call 100 100 1 (5/100) (2/10) ∧
      0 ≤ black_scholes_put 100 100 1 (5/100) (2/10)) :=
  ⟨by norm_num, by norm_num,
    C9_prices_nonneg 100 100 1 (5/100) (2/10) (by norm_num) (by norm_num)
      (by norm_num) (by norm_num)⟩

/-! ### The sweep axes and grids -/

lemma linspace_length (a b : ℝ) (n : ℕ) : (linspace a b n).length = n := by
  rw [linspace, List.length_map, List.length_range]

lemma linspace_self (a : ℝ) (n : ℕ) : linspace a a n = List.replicate n a := by
  rw [List.eq_replicate_iff]
  refine ⟨linspace_length a a n, fun x hx => ?_⟩
  rw [linspace] at hx
  obtain ⟨i, _, rfl⟩ := List.mem_map.mp hx
  simp

lemma linspace_nodup {a b : ℝ} (h : a < b) {n : ℕ} (hn : 2 ≤ n) :
    (linspace a b n).Nodup := by
  rw [linspace]
  refine List.Nodup.map ?_ (List.nodup_range n)
  intro i j hij
  have hab : (0:ℝ) < b - a := by linarith
  have hn1 : (0:ℝ) < (n:ℝ) - 1 := by
    have h2 : (2:ℝ) ≤ (n:ℝ) := by exact_mod_cast hn
    linarith
  have hcast : (i : ℝ) = j := by
    have h2 : (b - a) * (i:ℝ) / ((n:ℝ) - 1) = (b - a) * (j:ℝ) / ((n:ℝ) - 1) := by
      simpa using hij
    rw [div_eq_div_iff hn1.ne' hn1.ne'] at h2
    exact mul_left_cancel₀ hab.ne' (mul_right_cancel₀ hn1.ne' h2)
  exact_mod_cast hcast

lemma volatilities_self : volatilities (2/10) (2/10) (2/10) = [2/10] := by
  rw [volatilities, npUnique, linspace_self]
  have h2 : (List.replicate 10 ((2:ℝ)/10) ++ [2/10]).toFinset = {(2:ℝ)/10} := by
    ext x
    simp [List.mem_replicate]
  rw [h2, Finset.sort_singleton]

lemma map_getD (g : ℝ → List ℝ) {l : List ℝ} {i : ℕ} (hi : i < l.length) :
    (l.map g).getD i [] = g (l.getD i 0) := by
  simp [List.getD_eq_getElem?_getD, List.getElem?_eq_getElem, hi,
    hi.trans_eq (List.length_map l _).symm]

lemma volatilities_toFinset (sigma mn mx : ℝ) :
    volatilities sigma mn mx = ((linspace mn mx 10).toFinset ∪ {sigma}).sort (· ≤ ·) := by
  have h : (linspace mn mx 10 ++ [sigma]).toFinset
      = (linspace mn mx 10).toFinset ∪ {sigma} := by
    rw [List.toFinset_append]
    simp
  rw [volatilities, npUnique, h]

/-- Claim C5: the call and put grids have exactly `volAxis.length` rows and
`spotAxis.length` columns, and cell `[i][j]` equals the single pricing
function evaluated at spot `spotAxis[j]` and volatility `volAxis[i]`, with
strike, maturity and rate held at the base parameters. -/
theorem C5_grid_shape (K T r : ℝ) (spotAxis volAxis : List ℝ) (i j : ℕ)
    (hi : i < volAxis.length) (hj : j < spotAxis.length) :
    (call_prices K T r spotAxis volAxis).length = volAxis.length ∧
    (put_prices K T r spotAxis volAxis).length = volAxis.length ∧
    (∀ row ∈ call_prices K T r spotAxis volAxis, row.length = spotAxis.length) ∧
    (∀ row ∈ put_prices K T r spotAxis volAxis, row.length = spotAxis.length) ∧
    ((call_prices K T r spotAxis volAxis).getD i []).getD j 0
      = black_scholes_call (spotAxis.getD j 0) K T r (volAxis.getD i 0) ∧
    ((put_prices K T r spotAxis volAxis).getD i []).getD j 0
      = black_scholes_put (spotAxis.getD j 0) K T r (volAxis.getD i 0) := by
  refine ⟨by simp [call_prices], by simp [put_prices], ?_, ?_, ?_, ?_⟩
  · intro row hrow
    obtain ⟨v, _, rfl⟩ := List.mem_map.mp hrow
    simp
  · intro row hrow
    obtain ⟨v, _, rfl⟩ := List.mem_map.mp hrow
    simp
  · rw [call_prices]
    simp [List.getD_eq_getElem?_getD, List.getElem?_eq_getElem, hi, hj,
      hi.trans_eq (List.length_map volAxis _).symm]
  · rw [put_prices]
    simp [List.getD_eq_getElem?_getD, List.getElem?_eq_getElem, hi, hj,
      hi.trans_eq (List.length_map volAxis _).symm]

/-- Witness for C5 with a one-element spot axis and volatility axis. -/
theorem C5_grid_shape_witness :
    0 < ([(2:ℝ)/10]).length ∧ 0 < ([(100:ℝ)]).length ∧
    ((call_prices 100 1 (5/100) [100] [2/10]).getD 0 []).getD 0 0
      = black_scholes_call (([(100:ℝ)]).getD 0 0) 100 1 (5/100)
          (([(2:ℝ)/10]).getD 0 0) :=
  ⟨by norm_num, by norm_num,
    (C5_grid_shape 100 1 (5/100) [100] [2/10] 0 0 (by norm_num)
      (by norm_num)).2.2.2.2.1⟩

/-- Claim C6: for every sweep, the base volatility is a member of the
volatility axis and appears exactly once, whatever the swept range. -/
theorem C6_base_vol_in_axis (sigma mn mx : ℝ) :
    sigma ∈ volatilities sigma mn mx ∧
    (volatilities sigma mn mx).Nodup ∧
    (volatilities sigma mn mx).count sigma = 1 := by
  have hmem : sigma ∈ volatilities sigma mn mx := by
    rw [volatilities, npUnique, Finset.mem_sort, List.mem_toFinset]
    exact List.mem_append_right _ (List.mem_singleton_self sigma)
  have hnd : (volatilities sigma mn mx).Nodup := by
    rw [volatilities, npUnique]
    exact Finset.sort_nodup _ _
  exact ⟨hmem, hnd, List.count_eq_one_of_mem hnd hmem⟩

/-- Claim C8: for every sweep whose volatility axis contains the base
volatility at row index `i`, the independently computed spot slices of
lines 128-129 (prices at each spot-axis value with volatility fixed at the
base volatility) equal row `i` of the call grid and of the put grid -- as
whole lists, and hence element for element. -/
theorem C8_slice_matches_row (K T r sigma mn mx min_S max_S : ℝ) (i : ℕ)
    (hi : i < (volatilities sigma mn mx).length)
    (hv : (volatilities sigma mn mx).getD i 0 = sigma) :
    (call_prices K T r (spot_prices min_S max_S) (volatilities sigma mn mx)).getD i []
      = spot_slice_call K T r sigma (spot_prices min_S max_S) ∧
    (put_prices K T r (spot_prices min_S max_S) (volatilities sigma mn mx)).getD i []
      = spot_slice_put K T r sigma (spot_prices min_S max_S) ∧
    (∀ j : ℕ,
      ((call_prices K T r (spot_prices min_S max_S)
          (volatilities sigma mn mx)).getD i []).getD j 0
        = (spot_slice_call K T r sigma (spot_prices min_S max_S)).getD j 0) ∧
    (∀ j : ℕ,
      ((put_prices K T r (spot_prices min_S max_S)
          (volatilities sigma mn mx)).getD i []).getD j 0
        = (spot_slice_put K T r sigma (spot_prices min_S max_S)).getD j 0) := by
  have hc : (call_prices K T r (spot_prices min_S max_S)
      (volatilities sigma mn mx)).getD i []
      = spot_slice_call K T r sigma (spot_prices min_S max_S) := by
    rw [call_prices, map_getD _ hi, hv, spot_slice_call]
  have hp : (put_prices K T r (spot_prices min_S max_S)
      (volatilities sigma mn mx)).getD i []
      = spot_slice_put K T r sigma (spot_prices min_S max_S) := by
    rw [put_prices, map_getD _ hi, hv, spot_slice_put]
  exact ⟨hc, hp, fun j => by rw [hc], fun j => by rw [hp]⟩

/-- Witness for C8 with base volatility 0.2 and a degenerate swept range. -/
theorem C8_slice_matches_row_witness :
    0 < (volatilities (2/10) (2/10) (2/10)).length ∧
    (volatilities (2/10) (2/10) (2/10)).getD 0 0 = 2/10 ∧
    (call_prices 100 1 (5/100) (spot_prices 80 120)
        (volatilities (2/10) (2/10) (2/10))).getD 0 []
      = spot_slice_call 100 1 (5/100) (2/10) (spot_prices 80 120) :=
  ⟨by rw [volatilities_self]; norm_num,
    by rw [volatilities_self]; simp,
    (C8_slice_matches_row 100 1 (5/100) (2/10) (2/10) (2/10) 80 120 0
      (by rw [volatilities_self]; norm_num) (by rw [volatilities_self]; simp)).1⟩

/-! ### Shape of the axes (claim C10) -/

/-- Counterexample to C10 as stated: with `min_sigma = max_sigma = 0.2` equal
to the base volatility, all ten uniform samples coincide, the base volatility
is one of them, and the volatility axis has length 1, not 10. -/
theorem C10_counterexample :
    ((2:ℝ)/10) ∈ linspace (2/10) (2/10) 10 ∧
    (volatilities (2/10) (2/10) (2/10)).length = 1 := by
  constructor
  · rw [linspace_self]
    exact List.mem_replicate.mpr ⟨by norm_num, rfl⟩
  · rw [volatilities_self]
    rfl

/-- Claim C10 (amended): the volatility axis is always strictly increasing and
the spot axis always has length 10; when the swept volatility range is
non-degenerate (`min_sigma < max_sigma`, so the 10 uniform samples are
distinct), the volatility axis has length 10 if the base volatility is one of
the samples and length 11 otherwise. -/
theorem C10_axis_shape (sigma mn mx min_S max_S : ℝ) (h : mn < mx) :
    (spot_prices min_S max_S).length = 10 ∧
    List.Sorted (· < ·) (volatilities sigma mn mx) ∧
    (sigma ∈ linspace mn mx 10 → (volatilities sigma mn mx).length = 10) ∧
    (sigma ∉ linspace mn mx 10 → (volatilities sigma mn mx).length = 11) := by
  have hnd : (linspace mn mx 10).Nodup := linspace_nodup h (by norm_num)
  have hcard : (linspace mn mx 10).toFinset.card = 10 := by
    rw [List.toFinset_card_of_nodup hnd, linspace_length]
  refine ⟨linspace_length min_S max_S 10, ?_, ?_, ?_⟩
  · rw [volatilities, npUnique]
    exact Finset.sort_sorted_lt _
  · intro hmemb
    rw [volatilities_toFinset, Finset.length_sort,
      Finset.union_eq_left.mpr (Finset.singleton_subset_iff.mpr
        (List.mem_toFinset.mpr hmemb)), hcard]
  · intro hmemb
    rw [volatilities_toFinset, Finset.length_sort, Finset.union_comm,
      ← Finset.insert_eq, Finset.card_insert_of_not_mem
        (fun hc => hmemb (List.mem_toFinset.mp hc)), hcard]

/-- Witness for C10 (amended) on the default swept range 0.1 to 0.3. -/
theorem C10_axis_shape_witness :
    (1:ℝ)/10 < 3/10 ∧
    ((spot_prices 80 120).length = 10 ∧
      List.Sorted (· < ·) (volatilities (2/10) (1/10) (3/10)) ∧
      ((2:ℝ)/10 ∈ linspace (1/10) (3/10) 10
        → (volatilities (2/10) (1/10) (3/10)).length = 10) ∧
      ((2:ℝ)/10 ∉ linspace (1/10) (3/10) 10
        → (volatilities (2/10) (1/10) (3/10)).length = 11)) :=
  ⟨by norm_num,
    C10_axis_shape (2/10) (1/10) (3/10) 80 120 (by norm_num)⟩

/-! ### Degenerate inputs (claim C3) -/

/-- Claim C3 concerns the behaviour at `volatility = 0` or `maturity = 0`.
The source performs no check: at maturity `T = 0` with `S = K` both the
numerator and the denominator of `d1` (and of `d2`) evaluate to zero, so
line 10 of src/main.py computes `0/0` — a silent NaN in IEEE arithmetic that
propagates into the returned prices — and no DegenerateInput error exists
anywhere in the code. -/
theorem C3_zero_maturity_is_zero_over_zero :
    d1_num 100 100 0 (5/100) (2/10) = 0 ∧
    d2_num 100 100 0 (5/100) (2/10) = 0 ∧
    d_den 0 (2/10) = 0 := by
  refine ⟨?_, ?_, ?_⟩
  · rw [d1_num]
    norm_num
  · rw [d2_num]
    norm_num
  · rw [d_den]
    simp

end
